import Mathlib

set_option maxHeartbeats 1000000
set_option maxRecDepth 100000

/-
Verification of the memento core: the content-addressed event store
(src/memento/core.py: hash_event, EventNode, MemoryGraph) and the region
abstraction over it (src/memento/region.py: Region).

Modelling conventions:
- Python dicts are association lists in insertion order; Python sets of id
  strings are Finsets.  A Python set's iteration order is unspecified; wherever
  the source materializes a set as a list (list(self.heads)), the model uses the
  sorted listing, and every property proved is insensitive to that order.
- time.time() is modelled as an explicit timestamp argument (a natural number).
- Mutable state is passed explicitly: an operation that mutates the graph or a
  region returns the updated value.
-/

/-- Hexadecimal digit character for a value below 16 (digit of a hexdigest). -/
def hexChar (n : Nat) : Char :=
  if n < 10 then Char.ofNat (48 + n) else Char.ofNat (87 + n)

/-- Modelled digest.  hashlib.blake2b(data, digest_size=n).hexdigest() is an external
cryptographic primitive; the model is a deterministic function of the input producing
exactly 2*n hexadecimal characters, the digest width of the source call.  Every claim
settled here depends only on the digest's determinism and output width, never on the
internal permutation of blake2b. -/
def blake2bHexdigest (digestSize : Nat) (data : String) : String :=
  let h := data.data.foldl (fun a c => (a * 131 + c.toNat + 7) % 2 ^ (8 * digestSize)) 5381
  String.mk ((List.range (2 * digestSize)).map
    (fun i => hexChar (h / 16 ^ (2 * digestSize - 1 - i) % 16)))

/-- JSON string escaping as in json.dumps (quote and backslash; the remaining
escape classes do not occur in the inputs this model serializes). -/
def jsonEscape (s : String) : String :=
  String.mk (s.data.foldr (fun c acc =>
    if c = '"' then '\\' :: '"' :: acc
    else if c = '\\' then '\\' :: '\\' :: acc
    else c :: acc) [])

/-- JSON string literal. -/
def jsonStr (s : String) : String := "\"" ++ jsonEscape s ++ "\""

/-- Separator-joined concatenation (String.intercalate, kept structural). -/
def joinSep (sep : String) : List String → String
  | [] => ""
  | [x] => x
  | x :: xs => x ++ sep ++ joinSep sep xs

/-- Serialized JSON object from already-rendered field values, with the default
json.dumps separators. -/
def jsonObj (fields : List (String × String)) : String :=
  "\x7b" ++ joinSep ", " (fields.map (fun kv => jsonStr kv.1 ++ ": " ++ kv.2)) ++ "\x7d"

/-- Serialized JSON array from already-rendered elements. -/
def jsonArr (elems : List String) : String :=
  "[" ++ joinSep ", " elems ++ "]"

/-- Python sorted() on a list of strings. -/
def sortStrings (l : List String) : List String :=
  List.insertionSort (fun a b => a ≤ b) l

/-- Entries of a string dict listed in sorted key order, as json.dumps does under
sort_keys=True. -/
def sortByKey (m : List (String × String)) : List (String × String) :=
  List.insertionSort (fun a b : String × String => a.1 ≤ b.1) m

/-- The logical payload dict that EventNode.__post_init__ passes to hash_event: the
fields op, content, timestamp and meta. -/
structure EventPayload where
  op : String
  content : String
  timestamp : Nat
  meta : List (String × String)
deriving DecidableEq, Repr

/-- json.dumps(payload, sort_keys=True): the four keys appear in their sorted order
"content" < "meta" < "op" < "timestamp", and the meta dict is serialized with its
keys sorted. -/
def payloadJson (p : EventPayload) : String :=
  jsonObj [("content", jsonStr p.content),
           ("meta", jsonObj ((sortByKey p.meta).map (fun kv => (kv.1, jsonStr kv.2)))),
           ("op", jsonStr p.op),
           ("timestamp", toString p.timestamp)]

/-- src/memento/core.py hash_event: json.dumps of the dict holding the event content
and the sorted parents list (sort_keys=True, key order "content" < "parents"), then a
blake2b digest with digest_size=8, returned as a hexdigest. -/
def hash_event (content : EventPayload) (parents : List String) : String :=
  blake2bHexdigest 8 (jsonObj
    [("content", payloadJson content),
     ("parents", jsonArr ((sortStrings parents).map jsonStr))])

/-- src/memento/core.py EventNode: an immutable event record; id is derived. -/
structure EventNode where
  op : String
  content : String
  timestamp : Nat
  meta : List (String × String)
  parents : List String
  id : String
deriving DecidableEq, Repr

/-- EventNode construction: __post_init__ sets id = hash_event over the payload
fields and the parents list. -/
def mkEventNode (op content : String) (timestamp : Nat) (meta : List (String × String))
    (parents : List String) : EventNode :=
  { op := op, content := content, timestamp := timestamp, meta := meta, parents := parents,
    id := hash_event { op := op, content := content, timestamp := timestamp, meta := meta } parents }

/-- src/memento/core.py MemoryGraph: the event store.  nodes is the id -> EventNode
dict (association list in insertion order), children the derived child index
(defaultdict of lists), heads the current frontier set. -/
structure MemoryGraph where
  nodes : List (String × EventNode)
  children : List (String × List String)
  heads : Finset String
deriving DecidableEq

/-- MemoryGraph.__init__: empty store. -/
def MemoryGraph.empty : MemoryGraph := { nodes := [], children := [], heads := ∅ }

/-- defaultdict(list) update self.children[p].append(eid): append to the entry of p,
creating it if absent. -/
def childAppend : List (String × List String) → String → String → List (String × List String)
  | [], p, eid => [(p, [eid])]
  | (k, v) :: rest, p, eid =>
    if k = p then (k, v ++ [eid]) :: rest else (k, v) :: childAppend rest p eid

/-- Canonical listing of a Python set of id strings (the model's list(s)). -/
def sortedIds (s : Finset String) : List String :=
  Quot.liftOn s.val (fun l => List.insertionSort (fun a b => a ≤ b) l)
    (fun _ _ h => List.eq_of_perm_of_sorted
      ((List.perm_insertionSort _ _).trans (h.trans (List.perm_insertionSort _ _).symm))
      (List.sorted_insertionSort _ _) (List.sorted_insertionSort _ _))

/-- src/memento/core.py MemoryGraph.add_event.  time.time() is the explicit timestamp
argument; parents = none models the Python default parents=None, which falls back to
the current heads.  Returns the event id together with the updated store. -/
def add_event (g : MemoryGraph) (op content : String) (timestamp : Nat)
    (meta : List (String × String)) (parents : Option (List String)) : String × MemoryGraph :=
  let ps : List String :=
    match parents with
    | some l => l
    | none => sortedIds g.heads
  let event := mkEventNode op content timestamp meta ps
  if (g.nodes.lookup event.id).isSome then
    (event.id, g)
  else
    (event.id,
      { nodes := g.nodes ++ [(event.id, event)],
        children := ps.foldl (fun ch p => childAppend ch p event.id) g.children,
        heads := insert event.id (g.heads \ ps.toFinset) })

/-- MemoryGraph.get: dict lookup, absent id is a valid none. -/
def getNode (g : MemoryGraph) (eid : String) : Option EventNode :=
  g.nodes.lookup eid

/-- Total number of parent links recorded in the store.  The traversal while-loops
pop one entry per iteration and push a stored node's parents at most once (the
visited guard), so iterations are bounded by the initial stack length plus this
number; the loops below take that bound as structural fuel, and the lemmas show the
fuel is never exhausted. -/
def totalParents (g : MemoryGraph) : Nat :=
  (g.nodes.map (fun p => p.2.parents.length)).sum

/-- The filter acceptance test of MemoryGraph.traverse: filter_fn is None or
filter_fn(node) is truthy. -/
def filterPass (filterFn : Option (EventNode → Bool)) (n : EventNode) : Bool :=
  match filterFn with
  | none => true
  | some f => f n

/-- The while-loop of MemoryGraph.traverse: pop an id; skip it if already visited;
skip it if absent from the store; otherwise mark it visited, collect the node if it
passes the filter, and push its parents.  The Python stack pops from the end of the
list; the model's list head is the top of that stack, so pushing appends the parents
reversed. -/
def traverseLoop (g : MemoryGraph) (filterFn : Option (EventNode → Bool)) :
    Nat → List String → Finset String → List EventNode → List EventNode
  | 0, _, _, result => result
  | _ + 1, [], _, result => result
  | fuel + 1, current :: stack, visited, result =>
    if current ∈ visited then traverseLoop g filterFn fuel stack visited result
    else
      match g.nodes.lookup current with
      | none => traverseLoop g filterFn fuel stack visited result
      | some node =>
        traverseLoop g filterFn fuel (node.parents.reverse ++ stack) (insert current visited)
          (if filterPass filterFn node then result ++ [node] else result)

/-- sorted(result, key=lambda e: e.timestamp). -/
def sortByTimestamp (l : List EventNode) : List EventNode :=
  List.insertionSort (fun a b : EventNode => a.timestamp ≤ b.timestamp) l

/-- src/memento/core.py MemoryGraph.traverse: backward DFS from start (or from the
full current heads when start is None or falsy), visited-guarded, collecting nodes
accepted by filter_fn, result sorted by timestamp ascending. -/
def MemoryGraph.traverse (g : MemoryGraph) (start : Option String)
    (filterFn : Option (EventNode → Bool)) : List EventNode :=
  let stack : List String :=
    match start with
    | some s => if s = "" then sortedIds g.heads else [s]
    | none => sortedIds g.heads
  sortByTimestamp (traverseLoop g filterFn (stack.length + totalParents g + 1) stack ∅ [])

/-- Proof companion of traverseLoop: the final visited set of the very same loop
(same branching, same fuel); used only to state and prove the traversal lemmas. -/
def travVisit (g : MemoryGraph) :
    Nat → List String → Finset String → Finset String
  | 0, _, visited => visited
  | _ + 1, [], visited => visited
  | fuel + 1, current :: stack, visited =>
    if current ∈ visited then travVisit g fuel stack visited
    else
      match g.nodes.lookup current with
      | none => travVisit g fuel stack visited
      | some node => travVisit g fuel (node.parents.reverse ++ stack) (insert current visited)

/-- src/memento/region.py Region: a named pointer holding a string-map meta and a
set of head ids into the shared store. -/
structure Region where
  name : String
  meta : List (String × String)
  heads : Finset String
deriving DecidableEq

/-- Region._append_event: parents are the region's current heads, the event is
appended to the store with the region's meta, and the region's heads becomes the
singleton of the returned id. -/
def Region.append_event (r : Region) (op content : String) (timestamp : Nat)
    (g : MemoryGraph) : Region × MemoryGraph :=
  let parents := sortedIds r.heads
  let out := add_event g op content timestamp r.meta (some parents)
  ({ r with heads := {out.1} }, out.2)

/-- Region.observe. -/
def Region.observe (r : Region) (content : String) (timestamp : Nat) (g : MemoryGraph) :
    Region × MemoryGraph :=
  r.append_event "observe" content timestamp g

/-- Region.plan. -/
def Region.plan (r : Region) (content : String) (timestamp : Nat) (g : MemoryGraph) :
    Region × MemoryGraph :=
  r.append_event "plan" content timestamp g

/-- Region.effect: content is f-string "tool: result". -/
def Region.effect (r : Region) (tool result : String) (timestamp : Nat) (g : MemoryGraph) :
    Region × MemoryGraph :=
  r.append_event "effect" (tool ++ ": " ++ result) timestamp g

/-- Region.summarize. -/
def Region.summarize (r : Region) (content : String) (timestamp : Nat) (g : MemoryGraph) :
    Region × MemoryGraph :=
  r.append_event "summarize" content timestamp g

/-- Region.fork: a new region with the given name, a copy of meta, and the same
heads value. -/
def Region.fork (r : Region) (newName : String) : Region :=
  { name := newName, meta := r.meta, heads := r.heads }

/-- Region.merge: a new Region (constructed with the default empty meta) whose heads
is the union of the two input head sets. -/
def Region.merge (r other : Region) (newName : Option String) : Region :=
  { name := newName.getD (r.name ++ "_MERGED_" ++ other.name),
    meta := [],
    heads := r.heads ∪ other.heads }

/-- The while-loop of Region._reachable_hashes: pop an id, skip if visited, add it
to visited (present in the store or not), and push the parents of its node if the
store holds one. -/
def reachLoop (g : MemoryGraph) :
    Nat → List String → Finset String → Finset String
  | 0, _, visited => visited
  | _ + 1, [], visited => visited
  | fuel + 1, h :: stack, visited =>
    if h ∈ visited then reachLoop g fuel stack visited
    else
      match g.nodes.lookup h with
      | some node => reachLoop g fuel (node.parents.reverse ++ stack) (insert h visited)
      | none => reachLoop g fuel stack (insert h visited)

/-- Ids reachable from a root id set by following parents links (roots included). -/
def reachSet (g : MemoryGraph) (roots : Finset String) : Finset String :=
  reachLoop g ((sortedIds roots).length + totalParents g + 1) (sortedIds roots) ∅

/-- src/memento/region.py Region._reachable_hashes. -/
def Region.reachable_hashes (r : Region) (g : MemoryGraph) : Finset String :=
  reachSet g r.heads

/-- src/memento/region.py Region.replay: graph.traverse(start=None, filter_fn =
membership of the event id in the region's reachable hashes). -/
def Region.replay (r : Region) (g : MemoryGraph) : List EventNode :=
  MemoryGraph.traverse g none (some (fun e => decide (e.id ∈ r.reachable_hashes g)))

/-- src/memento/region.py Region.diff: the events of self's replay whose ids do not
occur in other's replay, sorted by timestamp.  The source builds dicts keyed by
event id and subtracts the key sets; replay yields id-distinct events keyed by their
own id, so this equals filtering self's replay by ids absent from other's replay. -/
def Region.diff (r other : Region) (g : MemoryGraph) : List EventNode :=
  let selfEvents := r.replay g
  let otherIds := (other.replay g).map (fun e => e.id)
  sortByTimestamp (selfEvents.filter (fun e => decide (e.id ∉ otherIds)))

/-- Declarative reachability in the store: an id is reachable from the root set if
it is a root, or a parent of a stored node that is reachable. -/
inductive ReachableFrom (g : MemoryGraph) (roots : Finset String) : String → Prop
  | root {x : String} : x ∈ roots → ReachableFrom g roots x
  | step {y x : String} {n : EventNode} : ReachableFrom g roots y →
      g.nodes.lookup y = some n → x ∈ n.parents → ReachableFrom g roots x

/-- The id keys of the store. -/
def keysFinset (g : MemoryGraph) : Finset String :=
  (g.nodes.map Prod.fst).toFinset

/-- Store well-formedness: the node dict has distinct keys (a Python dict invariant)
and every stored node is keyed by its own derived id (add_event inserts event under
event.id). -/
def NodesWF (g : MemoryGraph) : Prop :=
  (g.nodes.map Prod.fst).Nodup ∧ ∀ p ∈ g.nodes, p.2.id = p.1

/-- Every stored id is reachable from the store's heads.  This holds of every store
built through add_event: a new node enters heads and leaves it only when a later
node records it as a parent, so every node is an ancestor of some head. -/
def FullyReachable (g : MemoryGraph) : Prop :=
  ∀ p ∈ g.nodes, p.1 ∈ reachSet g g.heads

/-- Remaining parent-link weight of the unvisited part of the store: the bound on
future stack pushes used by the fuel-sufficiency arguments. -/
def pendWeight (g : MemoryGraph) (visited : Finset String) : Nat :=
  ((g.nodes.filter (fun p => decide (p.1 ∉ visited))).map (fun p => p.2.parents.length)).sum

/-- A collection of region objects, identified by position, with an in-place append
on the region at one position: the frame shape of Python's object state, used to
state fork isolation. -/
def appendAt (rs : List Region) (i : Nat) (op content : String) (timestamp : Nat)
    (g : MemoryGraph) : List Region × MemoryGraph :=
  match rs[i]? with
  | none => (rs, g)
  | some r =>
    let out := r.append_event op content timestamp g
    (rs.set i out.1, out.2)

/-- Concrete fixture: three chained events appended to an empty store. -/
def wOut1 : String × MemoryGraph := add_event MemoryGraph.empty "observe" "a" 1 [] (some [])

/-- Second fixture event, child of the first. -/
def wOut2 : String × MemoryGraph := add_event wOut1.2 "plan" "b" 2 [] (some [wOut1.1])

/-- Third fixture event, child of the second. -/
def wOut3 : String × MemoryGraph := add_event wOut2.2 "effect" "credit: 720" 3 [] (some [wOut2.1])

/-- The fixture store holding the three chained events. -/
def wGraph : MemoryGraph := wOut3.2

/-- Fixture region pointing at the middle of the chain. -/
def wRegionA : Region := { name := "Planner", meta := [], heads := {wOut2.1} }

/-- Fixture region pointing at the tip of the chain. -/
def wRegionB : Region := { name := "Retry", meta := [], heads := {wOut3.1} }

instance (g : MemoryGraph) : Decidable (NodesWF g) :=
  inferInstanceAs (Decidable ((g.nodes.map Prod.fst).Nodup ∧ ∀ p ∈ g.nodes, p.2.id = p.1))

instance (g : MemoryGraph) : Decidable (FullyReachable g) :=
  inferInstanceAs (Decidable (∀ p ∈ g.nodes, p.1 ∈ reachSet g g.heads))

/-- A successful association-list lookup returns a stored pair. -/
theorem lookup_mem {β : Type} {l : List (String × β)} {k : String} {v : β}
    (h : l.lookup k = some v) : (k, v) ∈ l := by
  induction l with
  | nil => simp [List.lookup] at h
  | cons p rest ih =>
    obtain ⟨a, b⟩ := p
    rw [List.lookup_cons] at h
    cases hka : k == a with
    | true =>
      rw [hka] at h
      simp only [Option.some.injEq] at h
      subst h
      have : k = a := by simpa using hka
      subst this
      exact List.mem_cons_self _ _
    | false =>
      rw [hka] at h
      exact List.mem_cons_of_mem _ (ih h)

/-- Lookup fails exactly on keys absent from the key list. -/
theorem lookup_eq_none_iff {β : Type} {l : List (String × β)} {k : String} :
    l.lookup k = none ↔ k ∉ l.map Prod.fst := by
  induction l with
  | nil => simp [List.lookup]
  | cons p rest ih =>
    obtain ⟨a, b⟩ := p
    rw [List.lookup_cons]
    cases hka : k == a with
    | true =>
      have : k = a := by simpa using hka
      subst this
      simp
    | false =>
      have : ¬ k = a := by simpa using hka
      simp [this, ih]

/-- With distinct keys, a stored pair is found by lookup. -/
theorem lookup_of_mem_nodup {β : Type} {l : List (String × β)}
    (hnd : (l.map Prod.fst).Nodup) {k : String} {v : β} (hm : (k, v) ∈ l) :
    l.lookup k = some v := by
  induction l with
  | nil => simp at hm
  | cons p rest ih =>
    obtain ⟨a, b⟩ := p
    simp only [List.map_cons, List.nodup_cons] at hnd
    rw [List.lookup_cons]
    rcases List.mem_cons.mp hm with h | h
    · injection h with h1 h2
      subst h1; subst h2
      simp
    · have hk : k ≠ a := by
        rintro rfl
        exact hnd.1 (List.mem_map_of_mem Prod.fst h)
      have hb : (k == a) = false := beq_eq_false_iff_ne.mpr hk
      rw [hb]
      exact ih hnd.2 h

/-- Lookup over a concatenation falls through to the right part when the left part
misses. -/
theorem lookup_append_of_none {β : Type} {l₁ l₂ : List (String × β)} {k : String}
    (h : l₁.lookup k = none) : (l₁ ++ l₂).lookup k = l₂.lookup k := by
  induction l₁ with
  | nil => simp
  | cons p rest ih =>
    obtain ⟨a, b⟩ := p
    rw [List.lookup_cons] at h
    rw [List.cons_append, List.lookup_cons]
    cases hka : k == a with
    | true => rw [hka] at h; simp at h
    | false => rw [hka] at h; exact ih h

/-- Lookup over a concatenation is decided by the left part when it hits. -/
theorem lookup_append_of_some {β : Type} {l₁ l₂ : List (String × β)} {k : String} {v : β}
    (h : l₁.lookup k = some v) : (l₁ ++ l₂).lookup k = some v := by
  induction l₁ with
  | nil => simp [List.lookup] at h
  | cons p rest ih =>
    obtain ⟨a, b⟩ := p
    rw [List.lookup_cons] at h
    rw [List.cons_append, List.lookup_cons]
    cases hka : k == a with
    | true => rw [hka] at h; exact h
    | false => rw [hka] at h; exact ih h

/-- A key with a successful lookup belongs to the store's key set. -/
theorem mem_keysFinset_of_lookup {g : MemoryGraph} {k : String} {v : EventNode}
    (h : g.nodes.lookup k = some v) : k ∈ keysFinset g :=
  List.mem_toFinset.mpr (List.mem_map_of_mem Prod.fst (lookup_mem h))

/-- A key absent from the store's key set has no lookup result. -/
theorem lookup_eq_none_of_not_mem_keys {g : MemoryGraph} {k : String}
    (h : k ∉ keysFinset g) : g.nodes.lookup k = none :=
  lookup_eq_none_iff.mpr (fun hm => h (List.mem_toFinset.mpr hm))

/-- Unfolding of sortedIds on an explicitly listed Finset. -/
theorem sortedIds_mk (l : List String) (h : Multiset.Nodup (l : Multiset String)) :
    sortedIds ⟨(l : Multiset String), h⟩ = List.insertionSort (fun a b => a ≤ b) l := rfl

/-- sortedIds lists exactly the members of the set. -/
theorem mem_sortedIds {s : Finset String} {x : String} : x ∈ sortedIds s ↔ x ∈ s := by
  rcases s with ⟨m, hm⟩
  revert hm
  refine Quot.inductionOn m ?_
  intro l hnd
  show x ∈ List.insertionSort (fun a b => a ≤ b) l ↔ _
  rw [List.mem_insertionSort]
  exact Iff.rfl

/-- Collecting the sortedIds listing back into a Finset is the identity. -/
theorem sortedIds_toFinset (s : Finset String) : (sortedIds s).toFinset = s :=
  Finset.ext (fun x => by rw [List.mem_toFinset, mem_sortedIds])

/-- Sorting is invariant under permutation of the input (strings are totally and
antisymmetrically ordered). -/
theorem sortStrings_eq_of_perm {l₁ l₂ : List String} (h : l₁.Perm l₂) :
    sortStrings l₁ = sortStrings l₂ :=
  List.eq_of_perm_of_sorted
    ((List.perm_insertionSort _ _).trans (h.trans (List.perm_insertionSort _ _).symm))
    (List.sorted_insertionSort _ _) (List.sorted_insertionSort _ _)

instance : IsTotal (String × String) (fun a b : String × String => a.1 ≤ b.1) :=
  ⟨fun a b => le_total a.1 b.1⟩

instance : IsTrans (String × String) (fun a b : String × String => a.1 ≤ b.1) :=
  ⟨fun _ _ _ h1 h2 => le_trans h1 h2⟩

instance : IsAntisymm (String × String) (fun a b : String × String => a.1 < b.1) :=
  ⟨fun _ _ h1 h2 => absurd h1 (lt_asymm h2)⟩

/-- A list sorted by non-strict key order with pairwise-distinct keys is sorted by
strict key order. -/
theorem sorted_keyLT_of_sorted_keyLE {l : List (String × String)}
    (hs : l.Sorted (fun a b : String × String => a.1 ≤ b.1))
    (hnd : (l.map Prod.fst).Nodup) :
    l.Sorted (fun a b : String × String => a.1 < b.1) := by
  have hne : l.Pairwise (fun a b : String × String => a.1 ≠ b.1) :=
    List.pairwise_map.mp hnd
  exact (hs.and hne).imp (fun h => lt_of_le_of_ne h.1 h.2)

/-- Key-sorting a string dict is invariant under permutation of its entries, as long
as the keys are pairwise distinct (a Python dict invariant). -/
theorem sortByKey_eq_of_perm {m₁ m₂ : List (String × String)} (h : m₁.Perm m₂)
    (hnd : (m₁.map Prod.fst).Nodup) : sortByKey m₁ = sortByKey m₂ := by
  have hperm : (sortByKey m₁).Perm (sortByKey m₂) :=
    (List.perm_insertionSort _ _).trans (h.trans (List.perm_insertionSort _ _).symm)
  have hnd₁ : ((sortByKey m₁).map Prod.fst).Nodup :=
    (((List.perm_insertionSort _ _).map Prod.fst).nodup_iff).mpr hnd
  have hnd₂ : ((sortByKey m₂).map Prod.fst).Nodup :=
    ((hperm.map Prod.fst).nodup_iff).mp hnd₁
  exact List.eq_of_perm_of_sorted hperm
    (sorted_keyLT_of_sorted_keyLE (List.sorted_insertionSort _ _) hnd₁)
    (sorted_keyLT_of_sorted_keyLE (List.sorted_insertionSort _ _) hnd₂)

/-- Helper: the filtered parent-weight sum over a node list shrinks as the visited
set grows. -/
theorem filterWeight_le_of_subset {v1 v2 : Finset String} (h : v1 ⊆ v2) :
    ∀ l : List (String × EventNode),
      ((l.filter (fun p => decide (p.1 ∉ v2))).map (fun p => p.2.parents.length)).sum ≤
      ((l.filter (fun p => decide (p.1 ∉ v1))).map (fun p => p.2.parents.length)).sum := by
  intro l
  induction l with
  | nil => simp
  | cons p rest ih =>
    rw [List.filter_cons, List.filter_cons]
    by_cases h2 : p.1 ∈ v2
    · have hd2 : (decide (p.1 ∉ v2)) = false := by simp [h2]
      rw [hd2]
      by_cases h1 : p.1 ∈ v1
      · have hd1 : (decide (p.1 ∉ v1)) = false := by simp [h1]
        rw [hd1]
        simpa using ih
      · have hd1 : (decide (p.1 ∉ v1)) = true := by simp [h1]
        rw [hd1]
        simp only [if_true, if_false, List.map_cons, List.sum_cons]
        exact le_trans ih (Nat.le_add_left _ _)
    · have h1 : p.1 ∉ v1 := fun hm => h2 (h hm)
      have hd2 : (decide (p.1 ∉ v2)) = true := by simp [h2]
      have hd1 : (decide (p.1 ∉ v1)) = true := by simp [h1]
      rw [hd1, hd2]
      simp only [if_true, if_false, List.map_cons, List.sum_cons]
      exact Nat.add_le_add_left ih _

/-- The pending parent weight shrinks as the visited set grows. -/
theorem pendWeight_le_of_subset (g : MemoryGraph) {v1 v2 : Finset String} (h : v1 ⊆ v2) :
    pendWeight g v2 ≤ pendWeight g v1 :=
  filterWeight_le_of_subset h g.nodes

/-- Helper: visiting a stored, unvisited id removes exactly its parent weight from
the pending weight (distinct keys make the removed entry unique). -/
theorem filterWeight_insert {c : String} {n : EventNode} {visited : Finset String}
    (hc : c ∉ visited) :
    ∀ l : List (String × EventNode), (l.map Prod.fst).Nodup → l.lookup c = some n →
      ((l.filter (fun p => decide (p.1 ∉ insert c visited))).map
          (fun p => p.2.parents.length)).sum + n.parents.length =
      ((l.filter (fun p => decide (p.1 ∉ visited))).map (fun p => p.2.parents.length)).sum := by
  intro l
  induction l with
  | nil => intro _ hl; simp [List.lookup] at hl
  | cons p rest ih =>
    intro hnd hl
    obtain ⟨a, b⟩ := p
    simp only [List.map_cons, List.nodup_cons] at hnd
    rw [List.lookup_cons] at hl
    rw [List.filter_cons, List.filter_cons]
    cases hca : c == a with
    | true =>
      have hceq : c = a := by simpa using hca
      rw [hca] at hl
      simp only [Option.some.injEq] at hl
      subst hl
      subst hceq
      have hdl : (decide (((c : String), b).1 ∉ insert c visited)) = false := by simp
      have hdr : (decide (((c : String), b).1 ∉ visited)) = true := by simp [hc]
      rw [hdl, hdr]
      have hrest : rest.filter (fun p => decide (p.1 ∉ insert c visited))
          = rest.filter (fun p => decide (p.1 ∉ visited)) := by
        refine List.filter_congr (fun q hq => ?_)
        have hqc : q.1 ≠ c := by
          rintro h
          exact hnd.1 (h ▸ List.mem_map_of_mem Prod.fst hq)
        simp [Finset.mem_insert, hqc]
      rw [hrest]
      simp only [if_true, if_false, List.map_cons, List.sum_cons]
      exact Nat.add_comm _ _
    | false =>
      have hcne : c ≠ a := by simpa using hca
      rw [hca] at hl
      have hsame : (decide ((a, b).1 ∉ insert c visited)) = (decide ((a, b).1 ∉ visited)) := by
        simp [Finset.mem_insert, (Ne.symm hcne)]
      rw [hsame]
      by_cases hav : a ∉ visited
      · have hd : (decide ((a, b).1 ∉ visited)) = true := by simp [hav]
        rw [hd]
        simp only [if_true, List.map_cons, List.sum_cons]
        rw [← ih hnd.2 hl]
        omega
      · have hd : (decide ((a, b).1 ∉ visited)) = false := by simp [hav]
        rw [hd]
        simpa using ih hnd.2 hl

/-- Visiting a stored, unvisited id removes exactly its parent weight from the
pending weight. -/
theorem pendWeight_insert (g : MemoryGraph) (hnd : (g.nodes.map Prod.fst).Nodup)
    {c : String} {n : EventNode} (hl : g.nodes.lookup c = some n) {visited : Finset String}
    (hc : c ∉ visited) :
    pendWeight g (insert c visited) + n.parents.length = pendWeight g visited :=
  filterWeight_insert hc g.nodes hnd hl

/-- On the empty visited set the pending weight is the total parent weight. -/
theorem pendWeight_empty (g : MemoryGraph) : pendWeight g ∅ = totalParents g := by
  unfold pendWeight totalParents
  rw [List.filter_eq_self.mpr (fun a _ => by simp)]

/-- Soundness of the _reachable_hashes loop: starting from reachable stack entries
and reachable visited entries, everything collected is reachable. -/
theorem reachLoop_sound (g : MemoryGraph) (roots : Finset String) :
    ∀ (fuel : Nat) (stack : List String) (visited : Finset String),
      (∀ c ∈ stack, ReachableFrom g roots c) →
      (∀ y ∈ visited, ReachableFrom g roots y) →
      ∀ x ∈ reachLoop g fuel stack visited, ReachableFrom g roots x := by
  intro fuel
  induction fuel with
  | zero =>
    intro stack visited _ hv x hx
    exact hv x (by simpa [reachLoop] using hx)
  | succ fuel ih =>
    intro stack visited hs hv x hx
    cases stack with
    | nil => exact hv x (by simpa [reachLoop] using hx)
    | cons c rest =>
      simp only [reachLoop] at hx
      by_cases hc : c ∈ visited
      · rw [if_pos hc] at hx
        exact ih rest visited (fun d hd => hs d (List.mem_cons_of_mem _ hd)) hv x hx
      · rw [if_neg hc] at hx
        have hcreach : ReachableFrom g roots c := hs c (List.mem_cons_self _ _)
        rcases hl : g.nodes.lookup c with _ | node
        · rw [hl] at hx
          refine ih rest (insert c visited) (fun d hd => hs d (List.mem_cons_of_mem _ hd))
            (fun y hy => ?_) x hx
          rcases Finset.mem_insert.mp hy with h | h
          · exact h ▸ hcreach
          · exact hv y h
        · rw [hl] at hx
          refine ih _ (insert c visited) (fun d hd => ?_) (fun y hy => ?_) x hx
          · rcases List.mem_append.mp hd with h | h
            · exact ReachableFrom.step hcreach hl (List.mem_reverse.mp h)
            · exact hs d (List.mem_cons_of_mem _ h)
          · rcases Finset.mem_insert.mp hy with h | h
            · exact h ▸ hcreach
            · exact hv y h

/-- Completeness bundle for the _reachable_hashes loop: with sufficient fuel and a
closed-or-on-stack invariant for the parents of visited nodes, the result contains
the visited set and every stack entry, and is closed under parents of stored
members. -/
theorem reachLoop_complete (g : MemoryGraph) (hnd : (g.nodes.map Prod.fst).Nodup) :
    ∀ (fuel : Nat) (stack : List String) (visited : Finset String),
      stack.length + pendWeight g visited < fuel →
      (∀ y ∈ visited, ∀ n, g.nodes.lookup y = some n →
        ∀ p ∈ n.parents, p ∈ visited ∨ p ∈ stack) →
      visited ⊆ reachLoop g fuel stack visited ∧
      (∀ c ∈ stack, c ∈ reachLoop g fuel stack visited) ∧
      (∀ y ∈ reachLoop g fuel stack visited, ∀ n, g.nodes.lookup y = some n →
        ∀ p ∈ n.parents, p ∈ reachLoop g fuel stack visited) := by
  intro fuel
  induction fuel with
  | zero => intro stack visited hlt _; omega
  | succ fuel ih =>
    intro stack visited hlt hinv
    cases stack with
    | nil =>
      refine ⟨by simp [reachLoop], by simp, ?_⟩
      intro y hy n hl p hp
      simp only [reachLoop] at hy ⊢
      rcases hinv y hy n hl p hp with h | h
      · exact h
      · simp at h
    | cons c rest =>
      simp only [reachLoop]
      by_cases hc : c ∈ visited
      · rw [if_pos hc]
        have hfuel : rest.length + pendWeight g visited < fuel := by
          simp only [List.length_cons] at hlt; omega
        have hinv2 : ∀ y ∈ visited, ∀ n, g.nodes.lookup y = some n →
            ∀ p ∈ n.parents, p ∈ visited ∨ p ∈ rest := by
          intro y hy n hl p hp
          rcases hinv y hy n hl p hp with h | h
          · exact Or.inl h
          · rcases List.mem_cons.mp h with h | h
            · exact Or.inl (h ▸ hc)
            · exact Or.inr h
        obtain ⟨ha, hb, hcl⟩ := ih rest visited hfuel hinv2
        refine ⟨ha, ?_, hcl⟩
        intro d hd
        rcases List.mem_cons.mp hd with h | h
        · exact ha (h ▸ hc)
        · exact hb d h
      · rw [if_neg hc]
        rcases hl : g.nodes.lookup c with _ | node
        · have hfuel : rest.length + pendWeight g (insert c visited) < fuel := by
            have := pendWeight_le_of_subset g (Finset.subset_insert c visited)
            simp only [List.length_cons] at hlt
            omega
          have hinv2 : ∀ y ∈ insert c visited, ∀ n, g.nodes.lookup y = some n →
              ∀ p ∈ n.parents, p ∈ insert c visited ∨ p ∈ rest := by
            intro y hy n hln p hp
            rcases Finset.mem_insert.mp hy with h | h
            · rw [h] at hln; rw [hln] at hl; exact Option.noConfusion hl
            · rcases hinv y h n hln p hp with h2 | h2
              · exact Or.inl (Finset.mem_insert_of_mem h2)
              · rcases List.mem_cons.mp h2 with h3 | h3
                · exact Or.inl (h3 ▸ Finset.mem_insert_self c visited)
                · exact Or.inr h3
          obtain ⟨ha, hb, hcl⟩ := ih rest (insert c visited) hfuel hinv2
          refine ⟨fun y hy => ha (Finset.mem_insert_of_mem hy), ?_, hcl⟩
          intro d hd
          rcases List.mem_cons.mp hd with h | h
          · exact ha (h ▸ Finset.mem_insert_self c visited)
          · exact hb d h
        · have hfuel : (node.parents.reverse ++ rest).length + pendWeight g (insert c visited)
              < fuel := by
            have hpw := pendWeight_insert g hnd hl hc
            simp only [List.length_append, List.length_reverse, List.length_cons] at hlt ⊢
            omega
          have hinv2 : ∀ y ∈ insert c visited, ∀ n, g.nodes.lookup y = some n →
              ∀ p ∈ n.parents, p ∈ insert c visited ∨ p ∈ node.parents.reverse ++ rest := by
            intro y hy n hln p hp
            rcases Finset.mem_insert.mp hy with h | h
            · rw [h] at hln
              rw [hln] at hl
              injection hl with hl
              refine Or.inr (List.mem_append.mpr (Or.inl ?_))
              rw [List.mem_reverse, ← hl]
              exact hp
            · rcases hinv y h n hln p hp with h2 | h2
              · exact Or.inl (Finset.mem_insert_of_mem h2)
              · rcases List.mem_cons.mp h2 with h3 | h3
                · exact Or.inl (h3 ▸ Finset.mem_insert_self c visited)
                · exact Or.inr (List.mem_append.mpr (Or.inr h3))
          obtain ⟨ha, hb, hcl⟩ := ih _ (insert c visited) hfuel hinv2
          refine ⟨fun y hy => ha (Finset.mem_insert_of_mem hy), ?_, hcl⟩
          intro d hd
          rcases List.mem_cons.mp hd with h | h
          · exact ha (h ▸ Finset.mem_insert_self c visited)
          · exact hb d (List.mem_append.mpr (Or.inr h))

/-- Everything _reachable_hashes collects is declaratively reachable. -/
theorem reachable_of_mem_reachSet (g : MemoryGraph) {roots : Finset String} {x : String}
    (h : x ∈ reachSet g roots) : ReachableFrom g roots x :=
  reachLoop_sound g roots _ _ _
    (fun c hc => ReachableFrom.root (mem_sortedIds.mp hc))
    (fun y hy => absurd hy (Finset.not_mem_empty y)) x h

/-- Everything declaratively reachable is collected by _reachable_hashes. -/
theorem mem_reachSet_of_reachable (g : MemoryGraph) (hnd : (g.nodes.map Prod.fst).Nodup)
    {roots : Finset String} {x : String} (h : ReachableFrom g roots x) :
    x ∈ reachSet g roots := by
  have hbase := reachLoop_complete g hnd ((sortedIds roots).length + totalParents g + 1)
    (sortedIds roots) ∅ (by rw [pendWeight_empty]; omega)
    (fun y hy => absurd hy (Finset.not_mem_empty y))
  induction h with
  | root hx => exact hbase.2.1 _ (mem_sortedIds.mpr hx)
  | step _ hl hp ih => exact hbase.2.2 _ ih _ hl _ hp

/-- The reachable-hash set of the source agrees with declarative reachability. -/
theorem mem_reachSet_iff (g : MemoryGraph) (hnd : (g.nodes.map Prod.fst).Nodup)
    {roots : Finset String} {x : String} :
    x ∈ reachSet g roots ↔ ReachableFrom g roots x :=
  ⟨reachable_of_mem_reachSet g, mem_reachSet_of_reachable g hnd⟩

/-- Reachability is monotone in the root set. -/
theorem ReachableFrom.mono {g : MemoryGraph} {s t : Finset String} (hst : s ⊆ t) {x : String}
    (h : ReachableFrom g s x) : ReachableFrom g t x := by
  induction h with
  | root hx => exact ReachableFrom.root (hst hx)
  | step _ hl hp ih => exact ReachableFrom.step ih hl hp

/-- Reachability from a union of root sets is reachability from either one. -/
theorem reachableFrom_union_iff {g : MemoryGraph} {s t : Finset String} {x : String} :
    ReachableFrom g (s ∪ t) x ↔ ReachableFrom g s x ∨ ReachableFrom g t x := by
  constructor
  · intro h
    induction h with
    | root hx =>
      rcases Finset.mem_union.mp hx with h | h
      · exact Or.inl (ReachableFrom.root h)
      · exact Or.inr (ReachableFrom.root h)
    | step _ hl hp ih =>
      rcases ih with h | h
      · exact Or.inl (ReachableFrom.step h hl hp)
      · exact Or.inr (ReachableFrom.step h hl hp)
  · intro h
    rcases h with h | h
    · exact h.mono Finset.subset_union_left
    · exact h.mono Finset.subset_union_right

/-- The visited set only grows along the traverse loop. -/
theorem travVisit_mono (g : MemoryGraph) :
    ∀ (fuel : Nat) (stack : List String) (visited : Finset String),
      visited ⊆ travVisit g fuel stack visited := by
  intro fuel
  induction fuel with
  | zero => intro stack visited; simp [travVisit]
  | succ fuel ih =>
    intro stack visited
    cases stack with
    | nil => simp [travVisit]
    | cons c rest =>
      simp only [travVisit]
      by_cases hc : c ∈ visited
      · rw [if_pos hc]; exact ih rest visited
      · rw [if_neg hc]
        rcases hl : g.nodes.lookup c with _ | node
        · exact ih rest visited
        · exact Finset.Subset.trans (Finset.subset_insert c visited) (ih _ _)

/-- Completeness bundle for the traverse loop: with sufficient fuel and the
invariant that parents of visited nodes are visited, still on the stack, or absent
from the store, the final visited set swallows every stack entry that is a store
key and is closed under parents of stored members (up to absent keys). -/
theorem travVisit_closed (g : MemoryGraph) (hnd : (g.nodes.map Prod.fst).Nodup) :
    ∀ (fuel : Nat) (stack : List String) (visited : Finset String),
      stack.length + pendWeight g visited < fuel →
      (∀ y ∈ visited, ∀ n, g.nodes.lookup y = some n →
        ∀ p ∈ n.parents, p ∈ visited ∨ p ∈ stack ∨ p ∉ keysFinset g) →
      (∀ c ∈ stack, c ∈ travVisit g fuel stack visited ∨ c ∉ keysFinset g) ∧
      (∀ y ∈ travVisit g fuel stack visited, ∀ n, g.nodes.lookup y = some n →
        ∀ p ∈ n.parents, p ∈ travVisit g fuel stack visited ∨ p ∉ keysFinset g) := by
  intro fuel
  induction fuel with
  | zero => intro stack visited hlt _; omega
  | succ fuel ih =>
    intro stack visited hlt hinv
    cases stack with
    | nil =>
      refine ⟨by simp, ?_⟩
      intro y hy n hl p hp
      simp only [travVisit] at hy ⊢
      rcases hinv y hy n hl p hp with h | h | h
      · exact Or.inl h
      · simp at h
      · exact Or.inr h
    | cons c rest =>
      simp only [travVisit]
      by_cases hc : c ∈ visited
      · rw [if_pos hc]
        have hfuel : rest.length + pendWeight g visited < fuel := by
          simp only [List.length_cons] at hlt; omega
        have hinv2 : ∀ y ∈ visited, ∀ n, g.nodes.lookup y = some n →
            ∀ p ∈ n.parents, p ∈ visited ∨ p ∈ rest ∨ p ∉ keysFinset g := by
          intro y hy n hl p hp
          rcases hinv y hy n hl p hp with h | h | h
          · exact Or.inl h
          · rcases List.mem_cons.mp h with h2 | h2
            · exact Or.inl (h2 ▸ hc)
            · exact Or.inr (Or.inl h2)
          · exact Or.inr (Or.inr h)
        obtain ⟨hb, hcl⟩ := ih rest visited hfuel hinv2
        refine ⟨?_, hcl⟩
        intro d hd
        rcases List.mem_cons.mp hd with h | h
        · exact Or.inl (travVisit_mono g fuel rest visited (h ▸ hc))
        · exact hb d h
      · rw [if_neg hc]
        rcases hl : g.nodes.lookup c with _ | node
        · have hcnk : c ∉ keysFinset g := by
            intro hk
            exact lookup_eq_none_iff.mp hl (List.mem_toFinset.mp hk)
          have hfuel : rest.length + pendWeight g visited < fuel := by
            simp only [List.length_cons] at hlt; omega
          have hinv2 : ∀ y ∈ visited, ∀ n, g.nodes.lookup y = some n →
              ∀ p ∈ n.parents, p ∈ visited ∨ p ∈ rest ∨ p ∉ keysFinset g := by
            intro y hy n hln p hp
            rcases hinv y hy n hln p hp with h | h | h
            · exact Or.inl h
            · rcases List.mem_cons.mp h with h2 | h2
              · exact Or.inr (Or.inr (h2 ▸ hcnk))
              · exact Or.inr (Or.inl h2)
            · exact Or.inr (Or.inr h)
          obtain ⟨hb, hcl⟩ := ih rest visited hfuel hinv2
          refine ⟨?_, hcl⟩
          intro d hd
          rcases List.mem_cons.mp hd with h | h
          · exact Or.inr (h ▸ hcnk)
          · exact hb d h
        · have hfuel : (node.parents.reverse ++ rest).length + pendWeight g (insert c visited)
              < fuel := by
            have hpw := pendWeight_insert g hnd hl hc
            simp only [List.length_append, List.length_reverse, List.length_cons] at hlt ⊢
            omega
          have hinv2 : ∀ y ∈ insert c visited, ∀ n, g.nodes.lookup y = some n →
              ∀ p ∈ n.parents, p ∈ insert c visited ∨ p ∈ node.parents.reverse ++ rest
                ∨ p ∉ keysFinset g := by
            intro y hy n hln p hp
            rcases Finset.mem_insert.mp hy with h | h
            · rw [h] at hln
              rw [hln] at hl
              injection hl with hl
              refine Or.inr (Or.inl (List.mem_append.mpr (Or.inl ?_)))
              rw [List.mem_reverse, ← hl]
              exact hp
            · rcases hinv y h n hln p hp with h2 | h2 | h2
              · exact Or.inl (Finset.mem_insert_of_mem h2)
              · rcases List.mem_cons.mp h2 with h3 | h3
                · exact Or.inl (h3 ▸ Finset.mem_insert_self c visited)
                · exact Or.inr (Or.inl (List.mem_append.mpr (Or.inr h3)))
              · exact Or.inr (Or.inr h2)
          obtain ⟨hb, hcl⟩ := ih _ (insert c visited) hfuel hinv2
          refine ⟨?_, hcl⟩
          intro d hd
          rcases List.mem_cons.mp hd with h | h
          · exact Or.inl (travVisit_mono g fuel _ _ (h ▸ Finset.mem_insert_self c visited))
          · exact hb d (List.mem_append.mpr (Or.inr h))

/-- Every stored id reachable from the initial stack is visited by the traverse
loop when it starts on an empty visited set with sufficient fuel. -/
theorem mem_travVisit_entry (g : MemoryGraph) (hnd : (g.nodes.map Prod.fst).Nodup)
    (stack0 : List String) {x : String}
    (hx : ReachableFrom g stack0.toFinset x) (hxk : x ∈ keysFinset g) :
    x ∈ travVisit g (stack0.length + totalParents g + 1) stack0 ∅ := by
  have hb := travVisit_closed g hnd (stack0.length + totalParents g + 1) stack0 ∅
    (by rw [pendWeight_empty]; omega)
    (fun y hy => absurd hy (Finset.not_mem_empty y))
  revert hxk
  induction hx with
  | root h =>
    intro hxk
    exact (hb.1 _ (List.mem_toFinset.mp h)).resolve_right (fun hk => hk hxk)
  | step hy hl hp ih =>
    intro hxk
    have hyk : _ ∈ keysFinset g := mem_keysFinset_of_lookup hl
    exact (hb.2 _ (ih hyk) _ hl _ hp).resolve_right (fun hk => hk hxk)

/-- Membership characterization of the traverse loop: an event is in the output iff
it was in the accumulator already, or it passes the filter, is stored under its own
id, and its id is newly visited by the loop.  Requires nodes keyed by their own id. -/
theorem traverseLoop_mem (g : MemoryGraph) (filterFn : Option (EventNode → Bool))
    (hid : ∀ p ∈ g.nodes, p.2.id = p.1) :
    ∀ (fuel : Nat) (stack : List String) (visited : Finset String) (acc : List EventNode)
      (n : EventNode),
      n ∈ traverseLoop g filterFn fuel stack visited acc ↔
        (n ∈ acc ∨ (filterPass filterFn n = true ∧ g.nodes.lookup n.id = some n ∧
          n.id ∈ travVisit g fuel stack visited ∧ n.id ∉ visited)) := by
  intro fuel
  induction fuel with
  | zero =>
    intro stack visited acc n
    simp only [traverseLoop, travVisit]
    constructor
    · exact Or.inl
    · rintro (h | ⟨_, _, h1, h2⟩)
      · exact h
      · exact absurd h1 h2
  | succ fuel ih =>
    intro stack visited acc n
    cases stack with
    | nil =>
      simp only [traverseLoop, travVisit]
      constructor
      · exact Or.inl
      · rintro (h | ⟨_, _, h1, h2⟩)
        · exact h
        · exact absurd h1 h2
    | cons c rest =>
      simp only [traverseLoop, travVisit]
      by_cases hc : c ∈ visited
      · rw [if_pos hc, if_pos hc]
        exact ih rest visited acc n
      · rw [if_neg hc, if_neg hc]
        rcases hl : g.nodes.lookup c with _ | node
        · exact ih rest visited acc n
        · have hnodeid : node.id = c := hid _ (lookup_mem hl)
          rw [ih _ _ _ n]
          constructor
          · rintro (hacc | ⟨hf, hlk, htv, hnv⟩)
            · by_cases hfp : filterPass filterFn node = true
              · rw [if_pos hfp] at hacc
                rcases List.mem_append.mp hacc with h | h
                · exact Or.inl h
                · have hn : n = node := by simpa using h
                  subst hn
                  refine Or.inr ⟨hfp, ?_, ?_, hnodeid ▸ hc⟩
                  · rw [hnodeid]; exact hl
                  · rw [hnodeid]
                    exact travVisit_mono g fuel _ _ (Finset.mem_insert_self c visited)
              · rw [if_neg hfp] at hacc
                exact Or.inl hacc
            · refine Or.inr ⟨hf, hlk, htv, fun hv => hnv (Finset.mem_insert_of_mem hv)⟩
          · rintro (hacc | ⟨hf, hlk, htv, hnv⟩)
            · refine Or.inl ?_
              by_cases hfp : filterPass filterFn node = true
              · rw [if_pos hfp]; exact List.mem_append.mpr (Or.inl hacc)
              · rw [if_neg hfp]; exact hacc
            · by_cases hcn : n.id = c
              · rw [hcn] at hlk
                rw [hlk] at hl
                injection hl with hn
                subst hn
                rw [if_pos hf]
                exact Or.inl (List.mem_append.mpr (Or.inr (List.mem_singleton.mpr rfl)))
              · refine Or.inr ⟨hf, hlk, htv, fun hv => ?_⟩
                rcases Finset.mem_insert.mp hv with h | h
                · exact hcn h
                · exact hnv h

/-- The traverse loop never emits two events with the same id: the accumulator ids
stay distinct (and inside the visited set) along the loop. -/
theorem traverseLoop_nodup (g : MemoryGraph) (filterFn : Option (EventNode → Bool))
    (hid : ∀ p ∈ g.nodes, p.2.id = p.1) :
    ∀ (fuel : Nat) (stack : List String) (visited : Finset String) (acc : List EventNode),
      ((acc.map (fun e => e.id)).Nodup) → (∀ m ∈ acc, m.id ∈ visited) →
      (((traverseLoop g filterFn fuel stack visited acc).map (fun e => e.id)).Nodup) := by
  intro fuel
  induction fuel with
  | zero => intro stack visited acc hacc _; simpa [traverseLoop] using hacc
  | succ fuel ih =>
    intro stack visited acc hacc hmem
    cases stack with
    | nil => simpa [traverseLoop] using hacc
    | cons c rest =>
      simp only [traverseLoop]
      by_cases hc : c ∈ visited
      · rw [if_pos hc]
        exact ih rest visited acc hacc hmem
      · rw [if_neg hc]
        rcases hl : g.nodes.lookup c with _ | node
        · exact ih rest visited acc hacc hmem
        · dsimp only
          have hnodeid : node.id = c := hid _ (lookup_mem hl)
          by_cases hfp : filterPass filterFn node = true
          · rw [if_pos hfp]
            refine ih _ (insert c visited) (acc ++ [node]) ?_ ?_
            · rw [List.map_append, List.nodup_append]
              refine ⟨hacc, by simp, ?_⟩
              intro a ha hb
              have hb2 : a = node.id := by simpa using hb
              subst hb2
              rcases List.mem_map.mp ha with ⟨m, hm, hma⟩
              exact hc (hnodeid ▸ (hma ▸ hmem m hm))
            · intro m hm
              rcases List.mem_append.mp hm with h | h
              · exact Finset.mem_insert_of_mem (hmem m h)
              · have : m = node := by simpa using h
                subst this
                rw [hnodeid]
                exact Finset.mem_insert_self c visited
          · rw [if_neg hfp]
            refine ih _ (insert c visited) acc hacc ?_
            intro m hm
            exact Finset.mem_insert_of_mem (hmem m hm)

/-- Replay membership: over a well-formed, fully reachable store, replay holds
exactly the stored events whose id is reachable from the region's heads. -/
theorem mem_replay_iff (r : Region) (g : MemoryGraph) (hwf : NodesWF g)
    (hfull : FullyReachable g) (n : EventNode) :
    n ∈ r.replay g ↔ (g.nodes.lookup n.id = some n ∧ ReachableFrom g r.heads n.id) := by
  unfold Region.replay MemoryGraph.traverse sortByTimestamp
  dsimp only
  rw [List.mem_insertionSort]
  rw [traverseLoop_mem g _ hwf.2 _ _ _ _ n]
  simp only [List.not_mem_nil, false_or, Finset.not_mem_empty, not_false_iff, and_true]
  constructor
  · rintro ⟨hf, hlk, _⟩
    refine ⟨hlk, ?_⟩
    have hmem : n.id ∈ reachSet g r.heads := by
      simpa [filterPass, Region.reachable_hashes] using hf
    exact reachable_of_mem_reachSet g hmem
  · rintro ⟨hlk, hre⟩
    refine ⟨?_, hlk, ?_⟩
    · simp only [filterPass, decide_eq_true_eq, Region.reachable_hashes]
      exact mem_reachSet_of_reachable g hwf.1 hre
    · have hmem : (n.id, n) ∈ g.nodes := lookup_mem hlk
      have hkeys : n.id ∈ keysFinset g := mem_keysFinset_of_lookup hlk
      have hreach : ReachableFrom g g.heads n.id :=
        reachable_of_mem_reachSet g (hfull _ hmem)
      have hreach2 : ReachableFrom g (sortedIds g.heads).toFinset n.id := by
        rw [sortedIds_toFinset]; exact hreach
      exact mem_travVisit_entry g hwf.1 _ hreach2 hkeys

/-- Replay never lists two events with the same id. -/
theorem replay_nodup (r : Region) (g : MemoryGraph)
    (hid : ∀ p ∈ g.nodes, p.2.id = p.1) :
    (((r.replay g).map (fun e => e.id)).Nodup) := by
  unfold Region.replay MemoryGraph.traverse sortByTimestamp
  dsimp only
  have hperm := (List.perm_insertionSort
    (fun a b : EventNode => a.timestamp ≤ b.timestamp)
    (traverseLoop g (some (fun e => decide (e.id ∈ r.reachable_hashes g)))
      ((sortedIds g.heads).length + totalParents g + 1) (sortedIds g.heads) ∅ [])).map
    (fun e => e.id)
  rw [hperm.nodup_iff]
  exact traverseLoop_nodup g _ hid _ _ _ _ (by simp) (by simp)

/-- C7: hash_event is deterministic — the same arguments always give the same id —
and the id is invariant under permuting the parents list or the meta entries
(meta keys are distinct, as in any Python dict). -/
theorem hash_event_deterministic (op c : String) (ts : Nat)
    (meta meta2 : List (String × String)) (ps ps2 : List String)
    (hp : ps.Perm ps2) (hm : meta.Perm meta2) (hnd : (meta.map Prod.fst).Nodup) :
    (hash_event { op := op, content := c, timestamp := ts, meta := meta } ps
      = hash_event { op := op, content := c, timestamp := ts, meta := meta } ps) ∧
    hash_event { op := op, content := c, timestamp := ts, meta := meta } ps
      = hash_event { op := op, content := c, timestamp := ts, meta := meta2 } ps2 := by
  refine ⟨rfl, ?_⟩
  unfold hash_event payloadJson
  rw [sortStrings_eq_of_perm hp, sortByKey_eq_of_perm hm hnd]

/-- Witness for C7 at concrete inputs: a transposed parents list and a transposed
meta dict hash to the same id. -/
theorem hash_event_deterministic_witness :
    (["b", "a"].Perm ["a", "b"]) ∧
    ([("k", "1"), ("j", "2")].Perm [("j", "2"), ("k", "1")]) ∧
    (([("k", "1"), ("j", "2")].map Prod.fst).Nodup) ∧
    ((hash_event (EventPayload.mk "observe" "x" 5 [("k", "1"), ("j", "2")]) ["b", "a"]
      = hash_event (EventPayload.mk "observe" "x" 5 [("k", "1"), ("j", "2")]) ["b", "a"]) ∧
     hash_event (EventPayload.mk "observe" "x" 5 [("k", "1"), ("j", "2")]) ["b", "a"]
      = hash_event (EventPayload.mk "observe" "x" 5 [("j", "2"), ("k", "1")]) ["a", "b"]) :=
  ⟨by decide, by decide, by decide,
    hash_event_deterministic "observe" "x" 5 [("k", "1"), ("j", "2")]
      [("j", "2"), ("k", "1")] ["b", "a"] ["a", "b"] (by decide) (by decide) (by decide)⟩

/-- C8: the id digest of every event is 16 hexadecimal characters, i.e. 64 bits —
the source passes digest_size=8 to blake2b — which is below the at least 256 bits
the specification demands. -/
theorem hash_event_digest_width (p : EventPayload) (ps : List String) :
    (hash_event p ps).length = 16 ∧ 16 * 4 < 256 := by
  constructor
  · unfold hash_event blake2bHexdigest
    simp [String.length]
  · decide

/-- C10: merge builds its result Region through the constructor default, leaving the
merged region's meta empty whatever the inputs carried, while fork copies the meta
of its source. -/
theorem merge_meta_empty (a b : Region) (nm : Option String) (nm2 : String) :
    (a.merge b nm).meta = [] ∧ (a.fork nm2).meta = a.meta :=
  ⟨rfl, rfl⟩

/-- C3: appending the same logical event (same op, content, timestamp, meta and
parents) a second time returns the same id as the first append and returns the
store exactly as it was after the first call: the duplicate is detected by its id
and nothing — node table, children index, heads — changes. -/
theorem add_event_idempotent (g : MemoryGraph) (op content : String) (ts : Nat)
    (meta : List (String × String)) (ps : List String) :
    add_event (add_event g op content ts meta (some ps)).2 op content ts meta (some ps)
      = add_event g op content ts meta (some ps) := by
  unfold add_event
  dsimp only
  by_cases h : (g.nodes.lookup (mkEventNode op content ts meta ps).id).isSome
  · rw [if_pos h, if_pos h]
  · rw [if_neg h]
    dsimp only
    have hnone : g.nodes.lookup (mkEventNode op content ts meta ps).id = none := by
      cases hl : g.nodes.lookup (mkEventNode op content ts meta ps).id
      · rfl
      · rw [hl] at h; simp at h
    have happ : (g.nodes ++ [((mkEventNode op content ts meta ps).id,
        mkEventNode op content ts meta ps)]).lookup (mkEventNode op content ts meta ps).id
        = some (mkEventNode op content ts meta ps) := by
      rw [lookup_append_of_none hnone]
      rw [List.lookup_cons]
      simp
    rw [happ]
    simp

/-- C9: an append through a region (observe, plan, effect, summarize all delegate to
_append_event) creates a node whose parents are exactly the region's prior heads,
and leaves the region's heads as the singleton of the new id.  The freshness
hypothesis says the computed id is not yet a store key (no digest collision). -/
theorem append_event_spec (r : Region) (op content : String) (ts : Nat) (g : MemoryGraph)
    (hfresh : (mkEventNode op content ts r.meta (sortedIds r.heads)).id ∉ keysFinset g) :
    ((r.append_event op content ts g).1.heads
        = {(mkEventNode op content ts r.meta (sortedIds r.heads)).id}) ∧
    ((r.append_event op content ts g).2.nodes.lookup
        (mkEventNode op content ts r.meta (sortedIds r.heads)).id
      = some (mkEventNode op content ts r.meta (sortedIds r.heads))) ∧
    ((mkEventNode op content ts r.meta (sortedIds r.heads)).parents.toFinset = r.heads) ∧
    (r.observe content ts g = r.append_event "observe" content ts g) ∧
    (r.plan content ts g = r.append_event "plan" content ts g) ∧
    (∀ tool res : String, r.effect tool res ts g
      = r.append_event "effect" (tool ++ ": " ++ res) ts g) ∧
    (r.summarize content ts g = r.append_event "summarize" content ts g) := by
  have hnone : g.nodes.lookup (mkEventNode op content ts r.meta (sortedIds r.heads)).id
      = none := lookup_eq_none_of_not_mem_keys hfresh
  refine ⟨?_, ?_, ?_, rfl, rfl, fun tool res => rfl, rfl⟩
  · simp only [Region.append_event, add_event]
    rw [hnone]
    simp
  · simp only [Region.append_event, add_event]
    rw [hnone]
    simp only [Option.isSome_none, Bool.false_eq_true, if_false]
    rw [lookup_append_of_none hnone, List.lookup_cons]
    simp
  · exact sortedIds_toFinset r.heads

/-- Witness for C9: a fresh plan event appended through the fixture region. -/
theorem append_event_spec_witness :
    ((mkEventNode "plan" "next" 10 wRegionA.meta (sortedIds wRegionA.heads)).id
        ∉ keysFinset wGraph) ∧
    (((wRegionA.append_event "plan" "next" 10 wGraph).1.heads
        = {(mkEventNode "plan" "next" 10 wRegionA.meta (sortedIds wRegionA.heads)).id}) ∧
     ((wRegionA.append_event "plan" "next" 10 wGraph).2.nodes.lookup
        (mkEventNode "plan" "next" 10 wRegionA.meta (sortedIds wRegionA.heads)).id
      = some (mkEventNode "plan" "next" 10 wRegionA.meta (sortedIds wRegionA.heads))) ∧
     ((mkEventNode "plan" "next" 10 wRegionA.meta (sortedIds wRegionA.heads)).parents.toFinset
        = wRegionA.heads) ∧
     (wRegionA.observe "next" 10 wGraph = wRegionA.append_event "observe" "next" 10 wGraph) ∧
     (wRegionA.plan "next" 10 wGraph = wRegionA.append_event "plan" "next" 10 wGraph) ∧
     (∀ tool res : String, wRegionA.effect tool res 10 wGraph
        = wRegionA.append_event "effect" (tool ++ ": " ++ res) 10 wGraph) ∧
     (wRegionA.summarize "next" 10 wGraph
        = wRegionA.append_event "summarize" "next" 10 wGraph)) :=
  ⟨by decide, append_event_spec wRegionA "plan" "next" 10 wGraph (by decide)⟩

/-- C2 counterexample: on the empty store, an append whose parents list names the
absent id "p0" does not fail and does not leave the store unchanged — it inserts
the node (and a children entry under the absent parent). -/
theorem add_event_missing_parent_cx :
    ("p0" ∉ keysFinset MemoryGraph.empty) ∧
    ((add_event MemoryGraph.empty "observe" "x" 1 [] (some ["p0"])).2.nodes.length = 1) ∧
    ((add_event MemoryGraph.empty "observe" "x" 1 [] (some ["p0"])).2.children.length = 1) := by
  refine ⟨by decide, rfl, rfl⟩

/-- C2 amended: add_event performs no parent-existence validation.  An append whose
parents contain an id absent from the store succeeds all the same: it returns the
computed id, inserts the node, updates the children index for every listed parent
(including the absent one) and updates heads. -/
theorem add_event_no_parent_validation (g : MemoryGraph) (op content : String) (ts : Nat)
    (meta : List (String × String)) (ps : List String) (p : String)
    (hp : p ∈ ps) (hmiss : p ∉ keysFinset g)
    (hfresh : (mkEventNode op content ts meta ps).id ∉ keysFinset g) :
    ((add_event g op content ts meta (some ps)).1 = (mkEventNode op content ts meta ps).id) ∧
    ((add_event g op content ts meta (some ps)).2.nodes
      = g.nodes ++ [((mkEventNode op content ts meta ps).id, mkEventNode op content ts meta ps)]) ∧
    ((add_event g op content ts meta (some ps)).2.children
      = ps.foldl (fun ch q => childAppend ch q (mkEventNode op content ts meta ps).id) g.children) ∧
    ((add_event g op content ts meta (some ps)).2.heads
      = insert (mkEventNode op content ts meta ps).id (g.heads \ ps.toFinset)) := by
  have hnone : g.nodes.lookup (mkEventNode op content ts meta ps).id = none :=
    lookup_eq_none_of_not_mem_keys hfresh
  simp only [add_event]
  rw [hnone]
  simp

/-- Witness for the amended C2 at the counterexample input. -/
theorem add_event_no_parent_validation_witness :
    ("p0" ∈ ["p0"]) ∧ ("p0" ∉ keysFinset MemoryGraph.empty) ∧
    ((mkEventNode "observe" "x" 1 [] ["p0"]).id ∉ keysFinset MemoryGraph.empty) ∧
    (((add_event MemoryGraph.empty "observe" "x" 1 [] (some ["p0"])).1
        = (mkEventNode "observe" "x" 1 [] ["p0"]).id) ∧
     ((add_event MemoryGraph.empty "observe" "x" 1 [] (some ["p0"])).2.nodes
        = MemoryGraph.empty.nodes
          ++ [((mkEventNode "observe" "x" 1 [] ["p0"]).id, mkEventNode "observe" "x" 1 [] ["p0"])]) ∧
     ((add_event MemoryGraph.empty "observe" "x" 1 [] (some ["p0"])).2.children
        = ["p0"].foldl (fun ch q => childAppend ch q (mkEventNode "observe" "x" 1 [] ["p0"]).id)
            MemoryGraph.empty.children) ∧
     ((add_event MemoryGraph.empty "observe" "x" 1 [] (some ["p0"])).2.heads
        = insert (mkEventNode "observe" "x" 1 [] ["p0"]).id
            (MemoryGraph.empty.heads \ (["p0"] : List String).toFinset))) :=
  ⟨by decide, by decide, by decide,
    add_event_no_parent_validation MemoryGraph.empty "observe" "x" 1 [] ["p0"] "p0"
      (by decide) (by decide) (by decide)⟩

/-- C1 counterexample: in the fixture store the second event is a strict ancestor of
the third (it is among the ids reachable from the third, per the code's own
_reachable_hashes loop, and distinct from it), regions Planner and Retry have heads
at the second and third event respectively, yet merging them keeps both heads —
not the minimal cover, which would be the third head alone. -/
theorem merge_not_minimal_cx :
    (wRegionA.heads = {wOut2.1}) ∧ (wRegionB.heads = {wOut3.1}) ∧
    (ReachableFrom wGraph {wOut3.1} wOut2.1) ∧ (wOut2.1 ≠ wOut3.1) ∧
    ((wRegionA.merge wRegionB (some "Unified")).heads ≠ {wOut3.1}) :=
  ⟨rfl, rfl,
    reachable_of_mem_reachSet wGraph (by decide), by decide, by decide⟩

/-- C1 amended: merge returns a region whose heads is the plain union of the two
input head sets; no ancestor is pruned (there is no minimal-cover computation). -/
theorem merge_heads_union (a b : Region) (nm : Option String) :
    (a.merge b nm).heads = a.heads ∪ b.heads := rfl

/-- C5: forking a region yields a new region object with the same heads and a copy
of the meta, and appending through either of the two region objects (here: region
objects live at distinct positions of an object collection, and _append_event
reassigns only the heads of its own region) leaves the other object — in
particular its heads — untouched. -/
theorem fork_isolation (rs : List Region) (i : Nat) (R : Region) (newName : String)
    (hi : rs[i]? = some R) :
    ((R.fork newName).heads = R.heads) ∧ ((R.fork newName).meta = R.meta) ∧
    (∀ op content ts g,
      ((appendAt (rs ++ [R.fork newName]) rs.length op content ts g).1)[i]? = some R) ∧
    (∀ op content ts g,
      ((appendAt (rs ++ [R.fork newName]) i op content ts g).1)[rs.length]?
        = some (R.fork newName)) := by
  have hilt : i < rs.length := by
    rcases List.getElem?_eq_some.mp hi with ⟨h, _⟩
    exact h
  have hine : i ≠ rs.length := Nat.ne_of_lt hilt
  have hfork : (rs ++ [R.fork newName])[rs.length]? = some (R.fork newName) :=
    List.getElem?_concat_length rs (R.fork newName)
  have horig : (rs ++ [R.fork newName])[i]? = some R := by
    rw [List.getElem?_append, if_pos hilt]
    exact hi
  refine ⟨rfl, rfl, ?_, ?_⟩
  · intro op content ts g
    unfold appendAt
    rw [hfork]
    dsimp only
    rw [List.getElem?_set_ne (Ne.symm hine)]
    exact horig
  · intro op content ts g
    unfold appendAt
    rw [horig]
    dsimp only
    rw [List.getElem?_set_ne hine]
    exact hfork

/-- Witness for C5: the fixture region forked once, with both append directions
checked at position level. -/
theorem fork_isolation_witness :
    (([wRegionA] : List Region)[0]? = some wRegionA) ∧
    (((wRegionA.fork "Retry").heads = wRegionA.heads) ∧
     ((wRegionA.fork "Retry").meta = wRegionA.meta) ∧
     (∀ op content ts g,
       ((appendAt ([wRegionA] ++ [wRegionA.fork "Retry"]) [wRegionA].length op content ts g).1)[0]?
         = some wRegionA) ∧
     (∀ op content ts g,
       ((appendAt ([wRegionA] ++ [wRegionA.fork "Retry"]) 0 op content ts g).1)[[wRegionA].length]?
         = some (wRegionA.fork "Retry"))) :=
  ⟨rfl, fork_isolation [wRegionA] 0 wRegionA "Retry" rfl⟩

/-- C4: over a well-formed, fully reachable store, the replay of a merge of two
regions contains exactly the stored events reachable from either input head set —
every reachable stored event appears, each id exactly once, and nothing
unreachable from both appears. -/
theorem merge_replay_complete (A B : Region) (g : MemoryGraph) (nm : Option String)
    (hwf : NodesWF g) (hfull : FullyReachable g) :
    (∀ n : EventNode, n ∈ (A.merge B nm).replay g ↔
      (g.nodes.lookup n.id = some n ∧
        (ReachableFrom g A.heads n.id ∨ ReachableFrom g B.heads n.id))) ∧
    ((((A.merge B nm).replay g).map (fun e => e.id)).Nodup) := by
  constructor
  · intro n
    rw [mem_replay_iff _ _ hwf hfull]
    have hh : (A.merge B nm).heads = A.heads ∪ B.heads := rfl
    rw [hh, reachableFrom_union_iff]
  · exact replay_nodup _ _ hwf.2

/-- Witness for C4 on the fixture store: Planner at the middle of the chain merged
with Retry at the tip. -/
theorem merge_replay_complete_witness :
    (NodesWF wGraph) ∧ (FullyReachable wGraph) ∧
    ((∀ n : EventNode, n ∈ (wRegionA.merge wRegionB (some "Unified")).replay wGraph ↔
      (wGraph.nodes.lookup n.id = some n ∧
        (ReachableFrom wGraph wRegionA.heads n.id ∨ ReachableFrom wGraph wRegionB.heads n.id))) ∧
     ((((wRegionA.merge wRegionB (some "Unified")).replay wGraph).map (fun e => e.id)).Nodup)) :=
  ⟨by decide, by decide,
    merge_replay_complete wRegionA wRegionB wGraph (some "Unified") (by decide) (by decide)⟩

/-- C6: over a well-formed, fully reachable store, diff(self, other) holds exactly
the stored events reachable from self's heads and not from other's heads, and the
self-diff of any region is empty. -/
theorem diff_spec (A B : Region) (g : MemoryGraph)
    (hwf : NodesWF g) (hfull : FullyReachable g) :
    (∀ n : EventNode, n ∈ A.diff B g ↔
      (g.nodes.lookup n.id = some n ∧ ReachableFrom g A.heads n.id ∧
        ¬ ReachableFrom g B.heads n.id)) ∧
    (A.diff A g = []) := by
  constructor
  · intro n
    unfold Region.diff
    dsimp only
    rw [sortByTimestamp, List.mem_insertionSort, List.mem_filter]
    rw [mem_replay_iff _ _ hwf hfull]
    constructor
    · rintro ⟨⟨hlk, hra⟩, hnb⟩
      refine ⟨hlk, hra, fun hrb => ?_⟩
      have hmb : n ∈ B.replay g := (mem_replay_iff B g hwf hfull n).mpr ⟨hlk, hrb⟩
      have hidb : n.id ∈ (B.replay g).map (fun e => e.id) := List.mem_map_of_mem _ hmb
      rw [decide_eq_true_eq] at hnb
      exact hnb hidb
    · rintro ⟨hlk, hra, hnrb⟩
      refine ⟨⟨hlk, hra⟩, ?_⟩
      rw [decide_eq_true_eq]
      intro hidb
      rcases List.mem_map.mp hidb with ⟨m, hm, hmid⟩
      have hmspec := (mem_replay_iff B g hwf hfull m).mp hm
      rw [hmid] at hmspec
      have hmn : m = n := by
        have := hmspec.1
        rw [hlk] at this
        injection this with h
        exact h.symm
      exact hnrb (hmn ▸ hmspec.2)
  · unfold Region.diff
    dsimp only
    have hfil : (A.replay g).filter
        (fun e => decide (e.id ∉ (A.replay g).map (fun e => e.id))) = [] := by
      rw [List.filter_eq_nil_iff]
      intro a ha
      simp [List.mem_map_of_mem _ ha]
    rw [hfil]
    rfl

/-- Witness for C6 on the fixture store: Retry diffed against Planner, and the
empty self-diff of Planner. -/
theorem diff_spec_witness :
    (NodesWF wGraph) ∧ (FullyReachable wGraph) ∧
    ((∀ n : EventNode, n ∈ wRegionB.diff wRegionA wGraph ↔
      (wGraph.nodes.lookup n.id = some n ∧ ReachableFrom wGraph wRegionB.heads n.id ∧
        ¬ ReachableFrom wGraph wRegionA.heads n.id)) ∧
     (wRegionB.diff wRegionB wGraph = [])) :=
  ⟨by decide, by decide, diff_spec wRegionB wRegionA wGraph (by decide) (by decide)⟩
